import Mathlib

/-!
Shallow embedding of the core ledger engine of `src/app.py` (WRR-Economy).

Python floats are modelled as exact rationals (`ℚ`), the SQLite tables as
fields of a `St` record: the `balances` table as a total function
`user → currency → ℚ` (an absent row reads as `0.0`, exactly the
`bal.get(currency, 0.0)` / `r["amount"] if r else 0.0` convention in the
source), the `investments` table as a per-user association list of
`(asset, shares)` rows, the `users.last_cashout` column as
`user → Option String`, and the `logs` table as an append-only list of
events carrying the data interpolated into the log message.

The price feed is passed as a function argument to `invest` and `cashout`:
both read `get_price(asset)` at call time, and `get_price` itself is
modelled separately (`get_price` below) over the `prices` table and the
in-memory `ASSET_PRICES` fallback.
-/

namespace WRR

/-- The `-1e-8` tolerance used by `change_balance` in the source. -/
def EPS : ℚ := 1 / 100000000

/-- The `1e-9` tolerance used by the funds pre-checks of the `/invest` and
`/gamble` routes. -/
def TOL : ℚ := 1 / 1000000000

/-- `CURRENCY_RATES_EUR = {"WRR": 50.23, "LC": 20.54, "KP": 5.01}`, as a
partial map: `CURRENCY_RATES_EUR[currency]` raises `KeyError` in Python for
any other key. -/
def CURRENCY_RATES_EUR : String → Option ℚ := fun c =>
  if c = "WRR" then some (5023 / 100)
  else if c = "LC" then some (2054 / 100)
  else if c = "KP" then some (501 / 100)
  else none

/-- The initial in-memory `ASSET_PRICES` dict:
`{"WRR": 50.23, "WRRC": 100.0, "LBC": 75.0, "KSP": 40.0}` (the dict itself
mutates under `small_tick`, so `get_price` below takes it as a parameter). -/
def ASSET_PRICES : String → Option ℚ := fun a =>
  if a = "WRR" then some (5023 / 100)
  else if a = "WRRC" then some (100)
  else if a = "LBC" then some (75)
  else if a = "KSP" then some (40)
  else none

/-- One row of the append-only `logs` table, reduced to the data that the
source interpolates into the message text. -/
inductive LogEvent where
  | balanceChange (uid currency : String) (delta newAmt : ℚ)
  | invested (uid asset : String) (shares : ℚ)
  | cashedOut (uid : String) (totalEur wrrUnits : ℚ)
  deriving DecidableEq

/-- The persistent state touched by the core engines. -/
structure St where
  /-- `balances` table: `(user_id, currency) → amount`, absent row = `0.0`. -/
  bal : String → String → ℚ
  /-- `investments` table: the rows `(asset, shares)` of one user, in row
  order; `add_investment` keeps at most one row per asset. -/
  inv : String → List (String × ℚ)
  /-- `users.last_cashout`: an ISO date string, `NULL` initially. -/
  lastCashout : String → Option String
  /-- `logs` table, append-only. -/
  logs : List LogEvent

/-- `get_price(asset)` (src/app.py:150-154): the `prices` table row if
present, else `ASSET_PRICES.get(asset, 1.0)`.  `dbPrices` is the `prices`
table and `memPrices` the current in-memory dict. -/
def get_price (dbPrices memPrices : String → Option ℚ) (asset : String) : ℚ :=
  match dbPrices asset with
  | some p => p
  | none =>
    match memPrices asset with
    | some p => p
    | none => 1

/-- `change_balance(user_id, currency, delta)` (src/app.py:114-124):
reads the current amount (absent = `0.0`), computes `new = cur + delta`,
rejects when `new < -1e-8` with no mutation, otherwise persists `new` and
appends one log row. -/
def change_balance (s : St) (uid currency : String) (delta : ℚ) : Bool × St :=
  let cur_amount := s.bal uid currency
  let new := cur_amount + delta
  if new < -EPS then (false, s)
  else
    (true,
      { s with
        bal := fun u c => if u = uid ∧ c = currency then new else s.bal u c
        logs := s.logs ++ [LogEvent.balanceChange uid currency delta new] })

/-- Row update used by `add_investment`: `UPDATE` the first existing
`(user, asset)` row, or `INSERT` a fresh row at the end. -/
def addShares : List (String × ℚ) → String → ℚ → List (String × ℚ)
  | [], asset, shares => [(asset, shares)]
  | (b, m) :: t, asset, shares =>
    if b = asset then (b, m + shares) :: t else (b, m) :: addShares t asset shares

/-- `add_investment(user_id, asset, shares)` (src/app.py:126-137):
accumulates `shares` into the `(user_id, asset)` row (creating it if
absent) and appends one log row. -/
def add_investment (s : St) (uid asset : String) (shares : ℚ) : St :=
  { s with
    inv := fun u => if u = uid then addShares (s.inv u) asset shares else s.inv u
    logs := s.logs ++ [LogEvent.invested uid asset shares] }

/-- `get_investments(user_id)[asset]` read as a number: the `shares` of the
first `(user, asset)` row, `0` when no row exists. -/
def sharesOf : List (String × ℚ) → String → ℚ
  | [], _ => 0
  | (b, m) :: t, asset => if b = asset then m else sharesOf t asset

/-- `cashout(user_id)` (src/app.py:171-201).  `today` is
`date.today().isoformat()`; `price` is what `get_price` returns at call
time.  Returns `False` ("Already cashed out today") untouched when
`last_cashout == today`; otherwise sums `shares * price` over the user's
investment rows, deletes them, credits `total_eur / 50.23` to the WRR
balance, sets `last_cashout = today` and logs. -/
def cashout (s : St) (uid today : String) (price : String → ℚ) : Bool × St :=
  if s.lastCashout uid = some today then (false, s)
  else
    let rows := s.inv uid
    let total_eur := (rows.map (fun r => r.2 * price r.1)).sum
    let wrr_units := if (0 : ℚ) < 5023 / 100 then total_eur / (5023 / 100) else 0
    let cur_wrr := s.bal uid "WRR"
    let new_wrr := cur_wrr + wrr_units
    (true,
      { bal := fun u c => if u = uid ∧ c = "WRR" then new_wrr else s.bal u c
        inv := fun u => if u = uid then [] else s.inv u
        lastCashout := fun u => if u = uid then some today else s.lastCashout u
        logs := s.logs ++ [LogEvent.cashedOut uid total_eur wrr_units] })

/-- Result of the `/invest` POST handler, seen from the flash message. -/
inductive InvestRes where
  | insufficient
  | bought
  deriving DecidableEq

/-- The `/invest` POST handler core (src/app.py:283-296): computes
`units_needed = shares * price(asset) / CURRENCY_RATES_EUR[currency]`
(`none` models the `KeyError` for an unknown currency, raised before any
mutation), rejects when `bal + 1e-9 < units_needed`, otherwise debits via
`change_balance` (its return value is ignored by the source) and
accumulates the position via `add_investment`. -/
def invest (s : St) (uid asset : String) (shares : ℚ) (currency : String)
    (price : String → ℚ) : Option (InvestRes × St) :=
  match CURRENCY_RATES_EUR currency with
  | none => none
  | some rate =>
    let price_eur := price asset
    let units_needed := shares * price_eur / rate
    if s.bal uid currency + TOL < units_needed then some (.insufficient, s)
    else
      let s1 := (change_balance s uid currency (-units_needed)).2
      let s2 := add_investment s1 uid asset shares
      some (.bought, s2)

/-- Result of the `/gamble` POST handler, seen from the flash message. -/
inductive GambleRes where
  | insufficient
  | debitFailed
  | won
  | lost
  deriving DecidableEq

/-- The `/gamble` POST handler core (src/app.py:319-335): rejects when
`bal + 1e-9 < units`, else debits the stake via `change_balance` (checking
its result this time); `win` is the outcome of the single
`random.random() < 0.45` draw; on a win credits `units * 2.0` back
(ignoring the result of that credit). -/
def gamble (s : St) (uid currency : String) (units : ℚ) (win : Bool) :
    GambleRes × St :=
  if s.bal uid currency + TOL < units then (.insufficient, s)
  else
    let r1 := change_balance s uid currency (-units)
    if r1.1 = false then (.debitFailed, r1.2)
    else if win then
      let payout := units * 2
      (.won, (change_balance r1.2 uid currency payout).2)
    else (.lost, r1.2)

/-- One engine operation, as the claims enumerate them.  The price feed
value current at the call is carried inside the operation, reflecting that
`invest` and `cashout` read prices at call time. -/
inductive Op where
  | adjust (uid currency : String) (delta : ℚ)
  | invest (uid asset : String) (shares : ℚ) (currency : String)
      (price : String → ℚ)
  | cashout (uid today : String) (price : String → ℚ)
  | wager (uid currency : String) (stake : ℚ) (win : Bool)

/-- State after one engine operation (a raised `KeyError` aborts `invest`
before any mutation, leaving the state unchanged). -/
def step (s : St) : Op → St
  | .adjust uid c d => (change_balance s uid c d).2
  | .invest uid a n c p =>
    match invest s uid a n c p with
    | some r => r.2
    | none => s
  | .cashout uid t p => (cashout s uid t p).2
  | .wager uid c n w => (gamble s uid c n w).2

/-- State after a sequence of engine operations. -/
def run (s : St) : List Op → St
  | [] => s
  | op :: rest => run (step s op) rest

/-- A freshly created account as seeded by `create_user`
(src/app.py:86-101): balances `{WRR: 10.0, LC: 25.0, KP: 50.0}`, no
investments, no cashout yet, empty log (user-creation log rows elided). -/
def initAlice : St where
  bal := fun u c =>
    if u = "alice" then
      if c = "WRR" then 10 else if c = "LC" then 25 else if c = "KP" then 50 else 0
    else 0
  inv := fun _ => []
  lastCashout := fun _ => none
  logs := []

/-- An account that has already cashed out on 2026-10-12. -/
def alreadyAlice : St :=
  { initAlice with lastCashout := fun _ => some "2026-10-12" }

/-- An account holding one share of WRRC. -/
def investedAlice : St :=
  { initAlice with inv := fun u => if u = "alice" then [("WRRC", 1)] else [] }

/-- Operations under which the (amended) C1 invariant is preserved: every
`invest` carries a nonnegative share count and every price read by
`invest` or `cashout` is nonnegative.  `adjustBalance` and `wager` need no
side condition. -/
def GoodOp : Op → Prop
  | .invest _ _ n _ p => 0 ≤ n ∧ ∀ a, 0 ≤ p a
  | .cashout _ _ p => ∀ a, 0 ≤ p a
  | _ => True

/-- Balance part of the C1 invariant: every balance is at least `-ε`. -/
def BalInv (s : St) : Prop := ∀ u c, -EPS ≤ s.bal u c

/-- Position part of the C1 invariant: every stored investment row is
nonnegative. -/
def PosInv (s : St) : Prop := ∀ u, ∀ r ∈ s.inv u, 0 ≤ r.2

/-! ### Basic lemmas about the primitives -/

theorem TOL_le_EPS : TOL ≤ EPS := by norm_num [TOL, EPS]

theorem TOL_pos : 0 < TOL := by norm_num [TOL]

theorem change_balance_of_lt {s : St} {uid c : String} {d : ℚ}
    (h : s.bal uid c + d < -EPS) : change_balance s uid c d = (false, s) := by
  simp only [change_balance]
  rw [if_pos h]

theorem change_balance_of_ge {s : St} {uid c : String} {d : ℚ}
    (h : -EPS ≤ s.bal uid c + d) :
    change_balance s uid c d =
      (true,
        { s with
          bal := fun u c2 => if u = uid ∧ c2 = c then s.bal uid c + d else s.bal u c2
          logs := s.logs ++ [LogEvent.balanceChange uid c d (s.bal uid c + d)] }) := by
  simp only [change_balance]
  rw [if_neg (not_lt.2 h)]

theorem change_balance_inv_eq (s : St) (uid c : String) (d : ℚ) :
    ((change_balance s uid c d).2).inv = s.inv := by
  by_cases h : s.bal uid c + d < -EPS
  · rw [change_balance_of_lt h]
  · rw [change_balance_of_ge (not_lt.1 h)]

theorem change_balance_lastCashout_eq (s : St) (uid c : String) (d : ℚ) :
    ((change_balance s uid c d).2).lastCashout = s.lastCashout := by
  by_cases h : s.bal uid c + d < -EPS
  · rw [change_balance_of_lt h]
  · rw [change_balance_of_ge (not_lt.1 h)]

theorem change_balance_fst_of_ge {s : St} {uid c : String} {d : ℚ}
    (h : -EPS ≤ s.bal uid c + d) : (change_balance s uid c d).1 = true := by
  rw [change_balance_of_ge h]

theorem change_balance_bal_self_of_ge {s : St} {uid c : String} {d : ℚ}
    (h : -EPS ≤ s.bal uid c + d) :
    ((change_balance s uid c d).2).bal uid c = s.bal uid c + d := by
  rw [change_balance_of_ge h]
  dsimp only
  rw [if_pos ⟨rfl, rfl⟩]

theorem change_balance_bal_ne (s : St) (uid c : String) (d : ℚ) (u c2 : String)
    (hk : ¬(u = uid ∧ c2 = c)) :
    ((change_balance s uid c d).2).bal u c2 = s.bal u c2 := by
  by_cases h : s.bal uid c + d < -EPS
  · rw [change_balance_of_lt h]
  · rw [change_balance_of_ge (not_lt.1 h)]
    dsimp only
    rw [if_neg hk]

theorem change_balance_balInv {s : St} (hb : ∀ u c, -EPS ≤ s.bal u c)
    (uid c : String) (d : ℚ) :
    ∀ u c2, -EPS ≤ ((change_balance s uid c d).2).bal u c2 := by
  intro u c2
  by_cases h : s.bal uid c + d < -EPS
  · rw [change_balance_of_lt h]; exact hb u c2
  · rw [change_balance_of_ge (not_lt.1 h)]
    dsimp only
    by_cases hk : u = uid ∧ c2 = c
    · rw [if_pos hk]; exact not_lt.1 h
    · rw [if_neg hk]; exact hb u c2

/-- C5: `adjustBalance` computes `new = current + delta` (absent row read
as zero), fails with no mutation exactly when `new < -ε`, and otherwise
persists `new` and appends exactly one audit event. -/
theorem c5_adjustBalance (s : St) (uid c : String) (d : ℚ) :
    (change_balance s uid c d = (false, s) ↔ s.bal uid c + d < -EPS) ∧
    (-EPS ≤ s.bal uid c + d →
      (change_balance s uid c d).1 = true ∧
      ((change_balance s uid c d).2).bal uid c = s.bal uid c + d ∧
      (∀ u c2, ¬(u = uid ∧ c2 = c) →
        ((change_balance s uid c d).2).bal u c2 = s.bal u c2) ∧
      ((change_balance s uid c d).2).inv = s.inv ∧
      ((change_balance s uid c d).2).lastCashout = s.lastCashout ∧
      ((change_balance s uid c d).2).logs =
        s.logs ++ [LogEvent.balanceChange uid c d (s.bal uid c + d)]) := by
  constructor
  · constructor
    · intro heq
      by_contra hlt
      rw [change_balance_of_ge (not_lt.1 hlt)] at heq
      have := congrArg Prod.fst heq
      simp at this
    · exact change_balance_of_lt
  · intro h
    rw [change_balance_of_ge h]
    refine ⟨rfl, ?_, ?_, rfl, rfl, rfl⟩
    · dsimp only; rw [if_pos ⟨rfl, rfl⟩]
    · intro u c2 hk; dsimp only; rw [if_neg hk]

/-- Witness for C5 at the spec scenario: debiting 1000 from an account
holding 10.0 WRR fails and mutates nothing. -/
theorem c5_adjustBalance_witness :
    change_balance initAlice "alice" "WRR" (-1000) = (false, initAlice) :=
  (c5_adjustBalance initAlice "alice" "WRR" (-1000)).1.mpr
    (by norm_num [initAlice, EPS])

/-- C8: a successful `adjustBalance` by `delta` followed by a successful
`adjustBalance` by `-delta` restores the original balance exactly. -/
theorem c8_adjust_roundtrip (s : St) (uid c : String) (d : ℚ)
    (h1 : (change_balance s uid c d).1 = true)
    (h2 : (change_balance (change_balance s uid c d).2 uid c (-d)).1 = true) :
    ((change_balance (change_balance s uid c d).2 uid c (-d)).2).bal uid c =
      s.bal uid c := by
  by_cases ha : s.bal uid c + d < -EPS
  · rw [change_balance_of_lt ha] at h1
    exact absurd h1 (by simp)
  · rw [change_balance_of_ge (not_lt.1 ha)] at h2 ⊢
    by_cases hb :
      ({ s with
          bal := fun u c2 => if u = uid ∧ c2 = c then s.bal uid c + d else s.bal u c2
          logs := s.logs ++ [LogEvent.balanceChange uid c d (s.bal uid c + d)] } :
        St).bal uid c + -d < -EPS
    · rw [change_balance_of_lt hb] at h2
      exact absurd h2 (by simp)
    · rw [change_balance_of_ge (not_lt.1 hb)]
      dsimp only
      rw [if_pos ⟨rfl, rfl⟩, if_pos ⟨rfl, rfl⟩]
      ring

/-- Witness for C8: add then remove 3 WRR on a fresh account. -/
theorem c8_adjust_roundtrip_witness :
    ((change_balance (change_balance initAlice "alice" "WRR" 3).2
        "alice" "WRR" (-3)).2).bal "alice" "WRR" = initAlice.bal "alice" "WRR" := by
  apply c8_adjust_roundtrip
  · norm_num [change_balance, initAlice, EPS]
  · norm_num [change_balance, initAlice, EPS]

/-! ### Cashout -/

theorem cashout_of_eq {s : St} {uid today : String} {p : String → ℚ}
    (h : s.lastCashout uid = some today) : cashout s uid today p = (false, s) := by
  simp only [cashout]
  rw [if_pos h]

theorem cashout_of_ne {s : St} {uid today : String} {p : String → ℚ}
    (h : ¬s.lastCashout uid = some today) :
    cashout s uid today p =
      (true,
        { bal := fun u c =>
            if u = uid ∧ c = "WRR" then
              s.bal uid "WRR" + ((s.inv uid).map (fun r => r.2 * p r.1)).sum / (5023 / 100)
            else s.bal u c
          inv := fun u => if u = uid then [] else s.inv u
          lastCashout := fun u => if u = uid then some today else s.lastCashout u
          logs := s.logs ++
            [LogEvent.cashedOut uid ((s.inv uid).map (fun r => r.2 * p r.1)).sum
              (((s.inv uid).map (fun r => r.2 * p r.1)).sum / (5023 / 100))] }) := by
  simp only [cashout]
  rw [if_neg h, if_pos (by norm_num : (0 : ℚ) < 5023 / 100)]

/-- C2: when `last_cashout` already equals today, `cashout` fails with
"Already cashed out today" and changes nothing; in particular the second
of two same-day calls after a successful one always fails this way. -/
theorem c2_cashout_same_day (s : St) (uid today : String) (p p2 : String → ℚ)
    (h : s.lastCashout uid = some today) :
    cashout s uid today p = (false, s) ∧
    (∀ s0 : St, (cashout s0 uid today p2).1 = true →
      cashout (cashout s0 uid today p2).2 uid today p =
        (false, (cashout s0 uid today p2).2)) := by
  refine ⟨cashout_of_eq h, ?_⟩
  intro s0 h0
  by_cases he : s0.lastCashout uid = some today
  · rw [cashout_of_eq he] at h0
    simp at h0
  · apply cashout_of_eq
    rw [cashout_of_ne he]
    dsimp only
    rw [if_pos rfl]

/-- Witness for C2 on a concrete exhausted account. -/
theorem c2_cashout_same_day_witness :
    cashout alreadyAlice "alice" "2026-10-12" (fun _ => 100) = (false, alreadyAlice) :=
  (c2_cashout_same_day alreadyAlice "alice" "2026-10-12" (fun _ => 100)
    (fun _ => 100) rfl).1

/-- C4: for an eligible account, `cashout` succeeds, values the positions
at `Σ shares * price(asset)`, deletes them all, credits the total divided
by the WRR rate (50.23) to the WRR balance, and stamps today. -/
theorem c4_cashout_eligible (s : St) (uid today : String) (p : String → ℚ)
    (h : s.lastCashout uid ≠ some today) :
    (cashout s uid today p).1 = true ∧
    ((cashout s uid today p).2).inv uid = [] ∧
    ((cashout s uid today p).2).bal uid "WRR" =
      s.bal uid "WRR" + ((s.inv uid).map (fun r => r.2 * p r.1)).sum / (5023 / 100) ∧
    ((cashout s uid today p).2).lastCashout uid = some today := by
  rw [cashout_of_ne h]
  refine ⟨rfl, ?_, ?_, ?_⟩ <;> dsimp only
  · rw [if_pos rfl]
  · rw [if_pos ⟨rfl, rfl⟩]
  · rw [if_pos rfl]

/-- Witness for C4, matching the spec scenario: one share valued at 100.0
credits `100 / 50.23` WRR on top of the starting 10.0. -/
theorem c4_cashout_eligible_witness :
    ((cashout investedAlice "alice" "2026-10-12" (fun _ => 100)).2).bal "alice" "WRR" =
      10 + 100 / (5023 / 100) := by
  have h := c4_cashout_eligible investedAlice "alice" "2026-10-12" (fun _ => 100)
    (by simp [investedAlice, initAlice])
  rw [h.2.2.1]
  norm_num [investedAlice, initAlice]

/-- C9: an eligible account with no positions still cashes out
successfully: total 0 is credited, every balance is numerically unchanged,
and `last_cashout` is consumed for the day. -/
theorem c9_cashout_empty (s : St) (uid today : String) (p : String → ℚ)
    (h1 : s.lastCashout uid ≠ some today) (h2 : s.inv uid = []) :
    (cashout s uid today p).1 = true ∧
    (∀ u c, ((cashout s uid today p).2).bal u c = s.bal u c) ∧
    ((cashout s uid today p).2).lastCashout uid = some today ∧
    ((cashout s uid today p).2).logs = s.logs ++ [LogEvent.cashedOut uid 0 0] := by
  rw [cashout_of_ne h1]
  refine ⟨rfl, ?_, ?_, ?_⟩
  · intro u c
    dsimp only
    by_cases hk : u = uid ∧ c = "WRR"
    · obtain ⟨rfl, rfl⟩ := hk
      rw [if_pos ⟨rfl, rfl⟩, h2]
      simp
    · rw [if_neg hk]
  · dsimp only
    rw [if_pos rfl]
  · dsimp only
    rw [h2]
    simp

/-- Witness for C9 on a fresh account with no investments. -/
theorem c9_cashout_empty_witness :
    ((cashout initAlice "alice" "2026-10-12" (fun _ => 100)).2).bal "alice" "WRR" =
      initAlice.bal "alice" "WRR" :=
  (c9_cashout_empty initAlice "alice" "2026-10-12" (fun _ => 100)
    (by simp [initAlice]) rfl).2.1 "alice" "WRR"

/-! ### Investment rows -/

theorem sharesOf_addShares_self (l : List (String × ℚ)) (a : String) (n : ℚ) :
    sharesOf (addShares l a n) a = sharesOf l a + n := by
  induction l with
  | nil => simp [addShares, sharesOf]
  | cons hd t ih =>
    obtain ⟨b, m⟩ := hd
    by_cases hb : b = a
    · simp [addShares, sharesOf, hb]
    · simp [addShares, sharesOf, hb, ih]

theorem sharesOf_addShares_ne (l : List (String × ℚ)) (a : String) (n : ℚ)
    (b2 : String) (h : ¬b2 = a) : sharesOf (addShares l a n) b2 = sharesOf l b2 := by
  have h2 : ¬a = b2 := fun he => h he.symm
  induction l with
  | nil => simp [addShares, sharesOf, h2]
  | cons hd t ih =>
    obtain ⟨b, m⟩ := hd
    by_cases hb : b = a
    · subst hb
      simp [addShares, sharesOf, h2]
    · simp [addShares, sharesOf, hb, ih]

theorem add_investment_bal (s : St) (uid asset : String) (n : ℚ) :
    (add_investment s uid asset n).bal = s.bal := rfl

theorem add_investment_lastCashout (s : St) (uid asset : String) (n : ℚ) :
    (add_investment s uid asset n).lastCashout = s.lastCashout := rfl

theorem add_investment_inv_self (s : St) (uid asset : String) (n : ℚ) :
    (add_investment s uid asset n).inv uid = addShares (s.inv uid) asset n := by
  simp [add_investment]

theorem add_investment_inv_ne (s : St) (uid asset : String) (n : ℚ)
    (u : String) (h : ¬u = uid) : (add_investment s uid asset n).inv u = s.inv u := by
  simp [add_investment, h]

/-- A failed funds pre-check implies the subsequent `change_balance` debit
passes its own `-1e-8` bound. -/
theorem funds_check_debit_ok {bal u : ℚ} (hf : ¬bal + TOL < u) : -EPS ≤ bal + -u := by
  have h1 : u ≤ bal + TOL := not_lt.1 hf
  have h2 := TOL_le_EPS
  linarith

theorem invest_insufficient {s : St} {uid asset : String} {n : ℚ} {c : String}
    {p : String → ℚ} {r : ℚ} (hr : CURRENCY_RATES_EUR c = some r)
    (hf : s.bal uid c + TOL < n * p asset / r) :
    invest s uid asset n c p = some (InvestRes.insufficient, s) := by
  simp only [invest]
  rw [hr]
  dsimp only
  rw [if_pos hf]

theorem invest_bought {s : St} {uid asset : String} {n : ℚ} {c : String}
    {p : String → ℚ} {r : ℚ} (hr : CURRENCY_RATES_EUR c = some r)
    (hf : ¬s.bal uid c + TOL < n * p asset / r) :
    invest s uid asset n c p =
      some (InvestRes.bought,
        add_investment (change_balance s uid c (-(n * p asset / r))).2 uid asset n) := by
  simp only [invest]
  rw [hr]
  dsimp only
  rw [if_neg hf]

/-- C3: a successful `invest` debits the pay currency by exactly
`shareCount * price(asset) / rate(payCurrency)`, adds exactly `shareCount`
to the `(account, asset)` position, and changes no other balance,
position, or cashout date. -/
theorem c3_invest_conservation (s : St) (uid asset : String) (n : ℚ) (c : String)
    (p : String → ℚ) (r : ℚ) (s2 : St)
    (hr : CURRENCY_RATES_EUR c = some r)
    (hs : invest s uid asset n c p = some (InvestRes.bought, s2)) :
    s2.bal uid c = s.bal uid c - n * p asset / r ∧
    sharesOf (s2.inv uid) asset = sharesOf (s.inv uid) asset + n ∧
    (∀ u c2, ¬(u = uid ∧ c2 = c) → s2.bal u c2 = s.bal u c2) ∧
    (∀ u a2, ¬(u = uid ∧ a2 = asset) → sharesOf (s2.inv u) a2 = sharesOf (s.inv u) a2) ∧
    s2.lastCashout = s.lastCashout := by
  by_cases hf : s.bal uid c + TOL < n * p asset / r
  · rw [invest_insufficient hr hf] at hs
    simp at hs
  · rw [invest_bought hr hf] at hs
    have hd := funds_check_debit_ok hf
    simp only [Option.some.injEq, Prod.mk.injEq, true_and] at hs
    subst hs
    rw [change_balance_of_ge hd]
    refine ⟨?_, ?_, ?_, ?_, ?_⟩
    · rw [add_investment_bal]
      dsimp only
      rw [if_pos ⟨rfl, rfl⟩]
      ring
    · rw [add_investment_inv_self]
      dsimp only
      rw [sharesOf_addShares_self]
    · intro u c2 hk
      rw [add_investment_bal]
      dsimp only
      rw [if_neg hk]
    · intro u a2 hk
      by_cases hu : u = uid
      · subst hu
        have ha : ¬a2 = asset := fun he => hk ⟨rfl, he⟩
        rw [add_investment_inv_self]
        dsimp only
        rw [sharesOf_addShares_ne _ _ _ _ ha]
      · rw [add_investment_inv_ne _ _ _ _ _ hu]
    · rw [add_investment_lastCashout]

/-- Witness for C3 at the spec scenario: 1 share priced 100.0 paid in LC
at rate 20.54 debits `100 / 20.54` from the starting 25.0 LC. -/
theorem c3_invest_conservation_witness :
    (invest initAlice "alice" "WRRC" 1 "LC" (fun _ => 100)).map
      (fun q => q.2.bal "alice" "LC") = some (25 - 1 * 100 / (2054 / 100)) := by
  have hr : CURRENCY_RATES_EUR "LC" = some (2054 / 100) := by simp [CURRENCY_RATES_EUR]
  have hs := @invest_bought initAlice "alice" "WRRC" 1 "LC" (fun _ => 100) (2054 / 100) hr
    (by simp only [initAlice, String.reduceEq, reduceIte]; norm_num [TOL])
  have h := c3_invest_conservation initAlice "alice" "WRRC" 1 "LC" (fun _ => 100)
    (2054 / 100) _ hr hs
  rw [hs]
  simp only [Option.map_some']
  rw [h.1]
  simp only [initAlice, String.reduceEq, reduceIte]

/-! ### Wager -/

/-- C7: when the stake is positive and the funds check passes, the wager
debits the stake, credits `2 * stake` exactly on a winning draw, and
touches nothing else. -/
theorem c7_wager (s : St) (uid c : String) (stake : ℚ) (win : Bool)
    (h1 : 0 < stake) (h2 : ¬s.bal uid c + TOL < stake) :
    (gamble s uid c stake win).1 = (if win then GambleRes.won else GambleRes.lost) ∧
    ((gamble s uid c stake win).2).bal uid c =
      s.bal uid c - stake + (if win then 2 * stake else 0) ∧
    (∀ u c2, ¬(u = uid ∧ c2 = c) →
      ((gamble s uid c stake win).2).bal u c2 = s.bal u c2) ∧
    ((gamble s uid c stake win).2).inv = s.inv ∧
    ((gamble s uid c stake win).2).lastCashout = s.lastCashout := by
  have hd : -EPS ≤ s.bal uid c + -stake := funds_check_debit_ok h2
  have hself := change_balance_bal_self_of_ge hd
  simp only [gamble]
  rw [if_neg h2, change_balance_fst_of_ge hd]
  cases win with
  | false =>
    simp only [Bool.true_eq_false, Bool.false_eq_true, reduceIte]
    refine ⟨trivial, ?_, ?_, ?_, ?_⟩
    · rw [hself]
      ring
    · intro u c2 hk
      exact change_balance_bal_ne s uid c (-stake) u c2 hk
    · exact change_balance_inv_eq s uid c (-stake)
    · exact change_balance_lastCashout_eq s uid c (-stake)
  | true =>
    simp only [Bool.true_eq_false, reduceIte]
    have hc : -EPS ≤
        ((change_balance s uid c (-stake)).2).bal uid c + stake * 2 := by
      rw [hself]
      linarith
    refine ⟨trivial, ?_, ?_, ?_, ?_⟩
    · rw [change_balance_bal_self_of_ge hc, hself]
      ring
    · intro u c2 hk
      rw [change_balance_bal_ne _ uid c (stake * 2) u c2 hk,
        change_balance_bal_ne s uid c (-stake) u c2 hk]
    · rw [change_balance_inv_eq, change_balance_inv_eq]
    · rw [change_balance_lastCashout_eq, change_balance_lastCashout_eq]

/-- Witness for C7: staking 5 WRR from the starting 10.0 and winning the
draw leaves `10 - 5 + 2 * 5 = 15` WRR. -/
theorem c7_wager_witness :
    ((gamble initAlice "alice" "WRR" 5 true).2).bal "alice" "WRR" = 15 := by
  have h := c7_wager initAlice "alice" "WRR" 5 true (by norm_num)
    (by simp only [initAlice, String.reduceEq, reduceIte]; norm_num [TOL])
  rw [h.2.1]
  simp only [initAlice, String.reduceEq, reduceIte]
  norm_num

/-! ### Price lookup -/

/-- C10: `get_price` is total: the stored `prices` row wins, then the
in-memory default, then `1.0`; `invest` on an asset unknown to both simply
proceeds at price `1.0` instead of reporting an error. -/
theorem c10_get_price_total (db mem : String → Option ℚ) (asset : String) :
    (∀ q, db asset = some q → get_price db mem asset = q) ∧
    (db asset = none → ∀ q, mem asset = some q → get_price db mem asset = q) ∧
    (db asset = none → mem asset = none → get_price db mem asset = 1) ∧
    (db asset = none → mem asset = none →
      ∀ (s : St) (uid : String) (n : ℚ) (c : String) (r : ℚ),
        CURRENCY_RATES_EUR c = some r →
        ¬s.bal uid c + TOL < n * 1 / r →
        invest s uid asset n c (get_price db mem) =
          some (InvestRes.bought,
            add_investment (change_balance s uid c (-(n * 1 / r))).2 uid asset n)) := by
  refine ⟨?_, ?_, ?_, ?_⟩
  · intro q h
    simp [get_price, h]
  · intro h1 q h2
    simp [get_price, h1, h2]
  · intro h1 h2
    simp [get_price, h1, h2]
  · intro h1 h2 s uid n c r hr hf
    have hp : get_price db mem asset = 1 := by simp [get_price, h1, h2]
    have := @invest_bought s uid asset n c (get_price db mem) r hr (by rw [hp]; exact hf)
    rw [this, hp]

/-- Witness for C10: an asset "DOGE" known to neither price store is
valued at 1.0 and can be bought. -/
theorem c10_get_price_total_witness :
    get_price (fun _ => none) (fun _ => none) "DOGE" = 1 ∧
    invest initAlice "alice" "DOGE" 2 "KP" (get_price (fun _ => none) (fun _ => none)) =
      some (InvestRes.bought,
        add_investment
          (change_balance initAlice "alice" "KP" (-(2 * 1 / (501 / 100)))).2
          "alice" "DOGE" 2) := by
  have h := c10_get_price_total (fun _ => none) (fun _ => none) "DOGE"
  exact ⟨h.2.2.1 rfl rfl,
    h.2.2.2 rfl rfl initAlice "alice" 2 "KP" (501 / 100)
      (by simp [CURRENCY_RATES_EUR])
      (by simp only [initAlice, String.reduceEq, reduceIte]; norm_num [TOL])⟩

/-! ### Input validation (C6) and the global invariant (C1) -/

theorem rate_pos {c : String} {r : ℚ} (h : CURRENCY_RATES_EUR c = some r) :
    0 < r := by
  simp only [CURRENCY_RATES_EUR] at h
  split at h
  · injection h with h2
    rw [← h2]; norm_num
  · split at h
    · injection h with h2
      rw [← h2]; norm_num
    · split at h
      · injection h with h2
        rw [← h2]; norm_num
      · cases h

/-- C6 counterexample: a wager with the non-positive stake `-5` is not
rejected — it runs the draw, reports a loss, and has credited 5 WRR, the
starting 10.0 becoming 15. -/
theorem c6_counterexample :
    (gamble initAlice "alice" "WRR" (-5) false).1 = GambleRes.lost ∧
    ((gamble initAlice "alice" "WRR" (-5) false).2).bal "alice" "WRR" = 15 := by
  have hb : initAlice.bal "alice" "WRR" = 10 := by
    simp only [initAlice, String.reduceEq, reduceIte]
  have hf : ¬initAlice.bal "alice" "WRR" + TOL < -5 := by
    rw [hb]; norm_num [TOL]
  have hd := funds_check_debit_ok hf
  constructor
  · simp only [gamble]
    rw [if_neg hf, change_balance_fst_of_ge hd]
    simp
  · simp only [gamble]
    rw [if_neg hf, change_balance_fst_of_ge hd]
    simp only [Bool.true_eq_false, Bool.false_eq_true, reduceIte]
    rw [change_balance_bal_self_of_ge hd, hb]
    norm_num

/-- C6 amended: the source performs no `InvalidAmount` validation.  With a
nonnegative balance, a wager with `stake ≤ 0` passes the funds check,
debits `-stake` (a credit), and resolves the draw (shown for a losing
draw); an `invest` with `shareCount ≤ 0` (nonnegative price) passes the
funds check, succeeds, and adds `shareCount` to the position. -/
theorem c6_amended_no_validation (s : St) (uid : String) :
    (∀ c stake, stake ≤ 0 → 0 ≤ s.bal uid c →
      (gamble s uid c stake false).1 = GambleRes.lost ∧
      ((gamble s uid c stake false).2).bal uid c = s.bal uid c - stake) ∧
    (∀ asset n c p r, n ≤ 0 → 0 ≤ s.bal uid c → 0 ≤ p asset →
      CURRENCY_RATES_EUR c = some r →
      invest s uid asset n c p =
        some (InvestRes.bought,
          add_investment (change_balance s uid c (-(n * p asset / r))).2
            uid asset n) ∧
      sharesOf
          ((add_investment (change_balance s uid c (-(n * p asset / r))).2
              uid asset n).inv uid) asset =
        sharesOf (s.inv uid) asset + n) := by
  constructor
  · intro c stake hstake hbal
    have hf : ¬s.bal uid c + TOL < stake := by
      have := TOL_pos
      intro hlt
      linarith
    have hd := funds_check_debit_ok hf
    constructor
    · simp only [gamble]
      rw [if_neg hf, change_balance_fst_of_ge hd]
      simp
    · simp only [gamble]
      rw [if_neg hf, change_balance_fst_of_ge hd]
      simp only [Bool.true_eq_false, Bool.false_eq_true, reduceIte]
      rw [change_balance_bal_self_of_ge hd]
      ring
  · intro asset n c p r hn hbal hp hr
    have hrpos := rate_pos hr
    have hu : n * p asset / r ≤ 0 :=
      div_nonpos_iff.2 (Or.inr ⟨mul_nonpos_iff.2 (Or.inr ⟨hn, hp⟩), le_of_lt hrpos⟩)
    have hf : ¬s.bal uid c + TOL < n * p asset / r := by
      have := TOL_pos
      intro hlt
      linarith
    refine ⟨invest_bought hr hf, ?_⟩
    rw [add_investment_inv_self, change_balance_inv_eq, sharesOf_addShares_self]

/-- Witness for the amended C6: wagering `-5` on the fresh account and
buying `-1` share of an asset priced 100 with WRR both go through. -/
theorem c6_amended_no_validation_witness :
    ((gamble initAlice "alice" "LC" (-5) false).2).bal "alice" "LC" = 25 - (-5) ∧
    sharesOf
        ((add_investment
            (change_balance initAlice "alice" "WRR"
              (-((-1) * (fun _ => (100 : ℚ)) "WRRC" / (5023 / 100)))).2
            "alice" "WRRC" (-1)).inv "alice") "WRRC" =
      sharesOf (initAlice.inv "alice") "WRRC" + (-1) := by
  have h := c6_amended_no_validation initAlice "alice"
  refine ⟨(h.1 "LC" (-5) (by norm_num)
    (by simp only [initAlice, String.reduceEq, reduceIte]; norm_num)).2, ?_⟩
  exact (h.2 "WRRC" (-1) "WRR" (fun _ => 100) (5023 / 100) (by norm_num)
    (by simp only [initAlice, String.reduceEq, reduceIte]; norm_num)
    (by norm_num) (by simp [CURRENCY_RATES_EUR])).2

theorem addShares_nonneg {l : List (String × ℚ)} {a : String} {n : ℚ}
    (hl : ∀ r ∈ l, 0 ≤ r.2) (hn : 0 ≤ n) :
    ∀ r ∈ addShares l a n, 0 ≤ r.2 := by
  induction l with
  | nil =>
    intro r hr
    simp only [addShares, List.mem_singleton] at hr
    subst hr
    exact hn
  | cons hd t ih =>
    obtain ⟨b, m⟩ := hd
    have hm : (0 : ℚ) ≤ m := hl (b, m) (List.mem_cons_self _ _)
    have ht : ∀ r ∈ t, (0 : ℚ) ≤ r.2 := fun r hr => hl r (List.mem_cons_of_mem _ hr)
    intro r hr
    by_cases hb : b = a
    · rw [addShares, if_pos hb] at hr
      rcases List.mem_cons.1 hr with rfl | hr2
      · exact add_nonneg hm hn
      · exact ht r hr2
    · rw [addShares, if_neg hb] at hr
      rcases List.mem_cons.1 hr with rfl | hr2
      · exact hm
      · exact ih ht r hr2

theorem ite_true_cond {α : Sort u} (a b : α) : (if true = true then a else b) = a := rfl

theorem ite_false_cond {α : Sort u} (a b : α) : (if false = true then a else b) = b := rfl

theorem gamble_pres (s : St) (uid c : String) (units : ℚ) (win : Bool)
    (hb : BalInv s) (hpos : PosInv s) :
    BalInv (gamble s uid c units win).2 ∧ PosInv (gamble s uid c units win).2 := by
  simp only [gamble]
  by_cases hf : s.bal uid c + TOL < units
  · rw [if_pos hf]
    exact ⟨hb, hpos⟩
  · rw [if_neg hf]
    have hd := funds_check_debit_ok hf
    rw [change_balance_fst_of_ge hd]
    simp only [Bool.true_eq_false, Bool.false_eq_true, reduceIte]
    cases win with
    | true =>
      rw [ite_true_cond]
      constructor
      · exact change_balance_balInv
          (change_balance_balInv hb uid c (-units)) uid c (units * 2)
      · intro u r hr
        rw [change_balance_inv_eq, change_balance_inv_eq] at hr
        exact hpos u r hr
    | false =>
      rw [ite_false_cond]
      constructor
      · exact change_balance_balInv hb uid c (-units)
      · intro u r hr
        rw [change_balance_inv_eq] at hr
        exact hpos u r hr

theorem cashout_pres (s : St) (uid today : String) (p : String → ℚ)
    (hp : ∀ a, 0 ≤ p a) (hb : BalInv s) (hpos : PosInv s) :
    BalInv (cashout s uid today p).2 ∧ PosInv (cashout s uid today p).2 := by
  by_cases h : s.lastCashout uid = some today
  · rw [cashout_of_eq h]
    exact ⟨hb, hpos⟩
  · rw [cashout_of_ne h]
    constructor
    · intro u c
      dsimp only
      by_cases hk : u = uid ∧ c = "WRR"
      · rw [if_pos hk]
        have hsum : 0 ≤ ((s.inv uid).map (fun r => r.2 * p r.1)).sum := by
          apply List.sum_nonneg
          intro x hx
          simp only [List.mem_map] at hx
          obtain ⟨r, hr, rfl⟩ := hx
          exact mul_nonneg (hpos uid r hr) (hp r.1)
        have hdiv : (0 : ℚ) ≤ ((s.inv uid).map (fun r => r.2 * p r.1)).sum / (5023 / 100) :=
          div_nonneg hsum (by norm_num)
        have := hb uid "WRR"
        linarith
      · rw [if_neg hk]
        exact hb u c
    · intro u r hr
      dsimp only at hr
      by_cases hu : u = uid
      · rw [if_pos hu] at hr
        simp at hr
      · rw [if_neg hu] at hr
        exact hpos u r hr

theorem invest_pres (s : St) (uid asset : String) (n : ℚ) (c : String)
    (p : String → ℚ) (hn : 0 ≤ n) (hb : BalInv s) (hpos : PosInv s) :
    BalInv (step s (Op.invest uid asset n c p)) ∧
    PosInv (step s (Op.invest uid asset n c p)) := by
  simp only [step]
  cases hrc : CURRENCY_RATES_EUR c with
  | none =>
    simp only [invest, hrc]
    exact ⟨hb, hpos⟩
  | some r =>
    by_cases hf : s.bal uid c + TOL < n * p asset / r
    · rw [invest_insufficient hrc hf]
      exact ⟨hb, hpos⟩
    · rw [invest_bought hrc hf]
      dsimp only
      constructor
      · intro u c2
        rw [add_investment_bal]
        exact change_balance_balInv hb uid c (-(n * p asset / r)) u c2
      · intro u r2 hr2
        by_cases hu : u = uid
        · subst hu
          rw [add_investment_inv_self, change_balance_inv_eq] at hr2
          exact addShares_nonneg (hpos u) hn r2 hr2
        · rw [add_investment_inv_ne _ _ _ _ _ hu, change_balance_inv_eq] at hr2
          exact hpos u r2 hr2

theorem step_preserves (s : St) (op : Op) (hg : GoodOp op)
    (hb : BalInv s) (hpos : PosInv s) :
    BalInv (step s op) ∧ PosInv (step s op) := by
  cases op with
  | adjust uid c d =>
    refine ⟨change_balance_balInv hb uid c d, ?_⟩
    intro u r hr
    rw [step, change_balance_inv_eq] at hr
    exact hpos u r hr
  | invest uid asset n c p => exact invest_pres s uid asset n c p hg.1 hb hpos
  | cashout uid t p => exact cashout_pres s uid t p hg hb hpos
  | wager uid c n w => exact gamble_pres s uid c n w hb hpos

/-- C1 counterexample: the claim fails as stated — `invest` accepts a
negative share count (the funds check passes trivially), leaving a
position of `-1` shares after one engine operation from a fresh account. -/
theorem c1_counterexample :
    sharesOf
        ((run initAlice
            [Op.invest "alice" "WRRC" (-1) "WRR" (fun _ => 100)]).inv "alice")
        "WRRC" < 0 := by
  have hrc : CURRENCY_RATES_EUR "WRR" = some (5023 / 100) := by
    simp [CURRENCY_RATES_EUR]
  have hf : ¬initAlice.bal "alice" "WRR" + TOL <
      (-1) * (fun _ => (100 : ℚ)) "WRRC" / (5023 / 100) := by
    simp only [initAlice, String.reduceEq, reduceIte]
    norm_num [TOL]
  simp only [run, step]
  rw [invest_bought hrc hf]
  dsimp only
  rw [add_investment_inv_self, change_balance_inv_eq]
  simp only [initAlice]
  simp [addShares, sharesOf]

/-- C1 amended: provided every `invest` in the sequence carries a
nonnegative share count and prices read are nonnegative (always true of
the real feed), every balance stays at least `-ε` and every investment
position stays nonnegative after any sequence of engine operations. -/
theorem c1_invariant (ops : List Op) (s : St) (hg : ∀ op ∈ ops, GoodOp op)
    (hb : BalInv s) (hpos : PosInv s) :
    BalInv (run s ops) ∧ PosInv (run s ops) := by
  induction ops generalizing s with
  | nil => exact ⟨hb, hpos⟩
  | cons op rest ih =>
    simp only [run]
    have h := step_preserves s op (hg op (List.mem_cons_self _ _)) hb hpos
    exact ih (step s op) (fun o ho => hg o (List.mem_cons_of_mem _ ho)) h.1 h.2

/-- Witness for the amended C1 on a concrete mixed sequence. -/
theorem c1_invariant_witness :
    BalInv (run initAlice
      [Op.wager "alice" "WRR" 5 true,
       Op.invest "alice" "WRRC" 1 "LC" (fun _ => 100),
       Op.cashout "alice" "2026-10-12" (fun _ => 100)]) ∧
    PosInv (run initAlice
      [Op.wager "alice" "WRR" 5 true,
       Op.invest "alice" "WRRC" 1 "LC" (fun _ => 100),
       Op.cashout "alice" "2026-10-12" (fun _ => 100)]) := by
  apply c1_invariant
  · intro op hop
    simp only [List.mem_cons, List.not_mem_nil, or_false] at hop
    rcases hop with rfl | rfl | rfl
    · exact trivial
    · exact ⟨by norm_num, fun a => by norm_num⟩
    · exact fun a => by norm_num
  · intro u c
    simp only [initAlice]
    split_ifs <;> norm_num [EPS]
  · intro u r hr
    simp only [initAlice, List.not_mem_nil] at hr

end WRR
